import Mathlib

/-
Shallow embedding of `buildutils/src/utils.ts` (jupyterlab repository
fragment): workspace package discovery (`getLernaPaths`), dependency graph
construction (`getPackageGraph`, `requirePackage`) over the
`dependency-graph` container, and the JSON read/write helpers
(`readJSONFile`, `writeJSONFile`, `writePackageData`).

JSON values are modelled by `JValue` (numbers as `Int`; the manifests the
builder manipulates carry no fractional numbers).  The filesystem and
Node's module resolution are modelled by an environment `Env`:
`files` maps a path to `none` (no file), `some none` (file present but not
parseable as JSON) or `some (some v)` (file parses to `v`); `globSync g`
is the result of `glob.sync g`; `resolveModule` / `resolveIn` model
`require.resolve` without / with a `paths` option; `raw` is the raw text
view of the filesystem used by `writePackageData`, and `pkgSerialize`
models `JSON.stringify(sortPackageJson(data), null, 2)` (third-party
serialization, kept abstract).  `path.join` is modelled by `pjoin`
(separator concatenation; path normalization is immaterial because all
paths flow through `pjoin` uniformly).  Serialization / parsing of JSON
files is modelled at the parsed level: `writeJSONFile` stores the value
whose serialized text it writes, reflecting that `JSON.parse` inverts
`JSON.stringify` on JSON data.
-/

set_option autoImplicit false

namespace Buildutils

/-- JSON values as manipulated by the build utilities. -/
inductive JValue where
  | null : JValue
  | bool : Bool → JValue
  | num : Int → JValue
  | str : String → JValue
  | arr : List JValue → JValue
  | obj : List (String × JValue) → JValue
  deriving Repr

/-- First binding for a key in an object's field list (JS property lookup;
`JSON.parse` never produces duplicate keys). -/
def lookupF : List (String × JValue) → String → Option JValue
  | [], _ => none
  | (k, v) :: fs, key => if k = key then some v else lookupF fs key

/-- JS property access `v[key]`: `none` models `undefined`. -/
def jget : JValue → String → Option JValue
  | .obj fs, k => lookupF fs k
  | _, _ => none

/-- JS truthiness of a JSON value. -/
def truthy : JValue → Bool
  | .null => false
  | .bool b => b
  | .num n => n != 0
  | .str s => s != ""
  | .arr _ => true
  | .obj _ => true

/-- JS truthiness where `none` models `undefined`. -/
def truthyU : Option JValue → Bool
  | none => false
  | some v => truthy v

/-- `path.join(a, b)` modelled as separator concatenation. -/
def pjoin (a b : String) : String := a ++ "/" ++ b

/-- Errors thrown by `require` of a JSON file: the module is missing
(`e.code === 'MODULE_NOT_FOUND'`) or some other error (e.g. a JSON
syntax error while loading the file). -/
inductive ReqErr where
  | moduleNotFound : ReqErr
  | other : ReqErr
  deriving Repr, DecidableEq

/-- Errors escaping `getLernaPaths`: the explicit
`No yarn workspace / lerna package list found` error (the spec's
`ConfigurationError`) or any other rethrown error. -/
inductive LernaErr where
  | config : LernaErr
  | other : LernaErr
  deriving Repr, DecidableEq

/-- The filesystem / module-resolution environment a run observes. -/
structure Env where
  files : String → Option (Option JValue)
  globSync : String → List String
  resolve : String → String
  resolveModule : String → Option String
  resolveIn : String → String → Option String
  raw : String → Option String
  pkgSerialize : JValue → String

/-- `require(p)` for a JSON file at a known path `p`. -/
def requireJSON (env : Env) (p : String) : Except ReqErr JValue :=
  match env.files p with
  | none => .error .moduleNotFound
  | some none => .error .other
  | some (some v) => .ok v

/-- `readJSONFile` (utils.ts:88-94): parse the file or throw a string
error naming the path. -/
def readJSONFile (env : Env) (p : String) : Except String JValue :=
  match env.files p with
  | some (some v) => .ok v
  | _ => .error ("Cannot read JSON for path " ++ p)

/-- `baseConfig.workspaces.packages || baseConfig.workspaces`. -/
def effectiveWorkspaces (ws : JValue) : JValue :=
  match jget ws "packages" with
  | some p => if truthy p then p else ws
  | none => ws

/-- The `lerna.json` fallback branch of `getLernaPaths`: require the file
(a missing file's `MODULE_NOT_FOUND` becomes the configuration error) and
read its `packages` field (`none` models `undefined`). -/
def lernaFallback (env : Env) (base : String) : Except LernaErr (Option JValue) :=
  match requireJSON env (pjoin base "lerna.json") with
  | .error .moduleNotFound => .error .config
  | .error .other => .error .other
  | .ok c => .ok (jget c "packages")

/-- All elements of a JSON array as strings, or `none` if one is not a
string (in which case `path.join` would throw a `TypeError`). -/
def asStrList : List JValue → Option (List String)
  | [] => some []
  | .str s :: xs => (asStrList xs).map (fun ys => s :: ys)
  | _ => none

/-- `for (const config of packages)`: an array iterates its elements
(each must be a string for `path.join`), a string iterates its
characters; any other value is not iterable (`TypeError`). -/
def iterStrings : JValue → Option (List String)
  | .arr xs => asStrList xs
  | .str s => some (s.toList.map (fun c => c.toString))
  | _ => none

/-- `getLernaPaths` (utils.ts:27-53): read the base `package.json`; use
its `workspaces` (or `workspaces.packages`) glob list when truthy, else
fall back to `lerna.json`'s `packages`; a `MODULE_NOT_FOUND` from either
`require` becomes the configuration error, any other error is rethrown.
Each glob is expanded via `glob.sync` and the matches are filtered to
directories containing a `package.json`. -/
def getLernaPaths (env : Env) (basePath : String) : Except LernaErr (List String) :=
  let base := env.resolve basePath
  let pkgs : Except LernaErr (Option JValue) :=
    match requireJSON env (pjoin base "package.json") with
    | .error .moduleNotFound => .error .config
    | .error .other => .error .other
    | .ok baseConfig =>
      match jget baseConfig "workspaces" with
      | some ws => if truthy ws then .ok (some (effectiveWorkspaces ws)) else lernaFallback env base
      | none => lernaFallback env base
  match pkgs with
  | .error e => .error e
  | .ok none => .error .other
  | .ok (some pv) =>
    match iterStrings pv with
    | none => .error .other
    | some cs =>
      .ok (((cs.map (fun c => env.globSync (pjoin base c))).flatten).filter
        (fun p => (env.files (pjoin p "package.json")).isSome))

mutual

/-- JS string coercion of a value used as an object key
(`locals[data.name]` coerces `data.name` to a string). -/
def jsKeyString : JValue → String
  | .null => "null"
  | .bool b => if b then "true" else "false"
  | .num n => toString n
  | .str s => s
  | .arr xs => jsArrString xs
  | .obj _ => "[object Object]"

/-- `Array.prototype.toString`: elements joined by commas, `null`
rendering as the empty string. -/
def jsArrString : List JValue → String
  | [] => ""
  | [.null] => ""
  | [x] => jsKeyString x
  | .null :: xs => "," ++ jsArrString xs
  | x :: xs => jsKeyString x ++ "," ++ jsArrString xs

end

/-- The object key under which `getPackageGraph` indexes a manifest:
`String(data.name)` (`"undefined"` when the field is absent). -/
def nameOf (data : JValue) : String :=
  match jget data "name" with
  | none => "undefined"
  | some v => jsKeyString v

/-- JS object assignment `o[k] = v`: overwrite in place if the key is
present, else append (insertion order of `Object.keys`). -/
def setKey (l : List (String × JValue)) (k : String) (v : JValue) : List (String × JValue) :=
  if l.any (fun p => p.1 = k) then
    l.map (fun p => if p.1 = k then (k, v) else p)
  else
    l ++ [(k, v)]

/-- `Object.keys` of a field list (duplicate keys cannot arise from
`JSON.parse`; kept first-occurrence here). -/
def dedupKeys (ks : List String) : List String :=
  ks.foldl (fun acc k => if k ∈ acc then acc else acc ++ [k]) []

/-- `Object.keys(data.dependencies || {})`: keys of the dependency map;
a truthy non-object yields index keys (arrays, strings) or nothing. -/
def depKeys (data : JValue) : List String :=
  match jget data "dependencies" with
  | some (.obj fs) => dedupKeys (fs.map Prod.fst)
  | some (.arr xs) => (List.range xs.length).map toString
  | some (.str s) => (List.range s.length).map toString
  | _ => []

/-- Left-to-right accumulation of the manifest-gathering pass. -/
def gatherLocalsAux (env : Env) (acc : List (String × JValue) × List String) :
    List String → List (String × JValue) × List String
  | [] => acc
  | pkgPath :: ps =>
    match readJSONFile env (pjoin pkgPath "package.json") with
    | .error e => gatherLocalsAux env (acc.1, acc.2 ++ [e]) ps
    | .ok data => gatherLocalsAux env (setKey acc.1 (nameOf data) data, acc.2) ps

/-- The manifest-gathering pass of `getPackageGraph` (utils.ts:278-288):
read each path's `package.json` into `locals[data.name]`; a failed read
is logged (`console.error`) and the path skipped. Returns the locals
mapping and the log of read errors. -/
def gatherLocals (env : Env) (paths : List String) : List (String × JValue) × List String :=
  gatherLocalsAux env ([], []) paths

/-- The `dependency-graph` container as used here: a name-keyed node map
plus directed edges. -/
structure DepGraph where
  nodes : List (String × JValue)
  outgoing : List (String × String)
  deriving Repr

/-- `DepGraph.hasNode`. -/
def DepGraph.hasNode (g : DepGraph) (n : String) : Bool :=
  g.nodes.any (fun p => p.1 = n)

/-- `DepGraph.addNode(node, data)`: a no-op when the node exists (the
container keeps a single entry per name). -/
def DepGraph.addNode (g : DepGraph) (n : String) (d : JValue) : DepGraph :=
  if g.hasNode n then g else { g with nodes := g.nodes ++ [(n, d)] }

/-- Errors during graph assembly: `addDependency` on a missing node, or
a dependency manifest that module resolution cannot locate / load. -/
inductive GErr where
  | missingNode : String → GErr
  | unresolved : String → GErr
  deriving Repr

/-- `DepGraph.addDependency(from, to)`: throws when either node is
missing; a duplicate `(from, to)` edge is not re-added. -/
def DepGraph.addDependency (g : DepGraph) (src dst : String) : Except GErr DepGraph :=
  if !g.hasNode src then .error (.missingNode src)
  else if !g.hasNode dst then .error (.missingNode dst)
  else if (src, dst) ∈ g.outgoing then .ok g
  else .ok { g with outgoing := g.outgoing ++ [(src, dst)] }

/-- `require` of a module at an already-resolved path: load and parse the
file there. -/
def loadModule (env : Env) (p : String) : Except GErr JValue :=
  match env.files p with
  | some (some v) => .ok v
  | _ => .error (.unresolved p)

/-- `requirePackage(parentModule, module)` (utils.ts:322-335): resolve
`module/package.json` relative to the resolved parent module; when the
parent itself cannot be resolved, fall back to a direct
`require(module/package.json)`. -/
def requirePackage (env : Env) (parentModule mod : String) : Except GErr JValue :=
  let packagePath := mod ++ "/package.json"
  match env.resolveModule parentModule with
  | none =>
    match env.resolveModule packagePath with
    | none => .error (.unresolved packagePath)
    | some p => loadModule env p
  | some parentModulePath =>
    match env.resolveIn packagePath parentModulePath with
    | none => .error (.unresolved packagePath)
    | some p => loadModule env p

/-- The `if (!graph.hasNode(depName))` block (utils.ts:298-308): when the
dependency has no node yet, take its data from `locals` when present
(`depName in locals`), else from `requirePackage(name, depName)`, and add
the node. -/
def ensureDepNode (env : Env) (locals : List (String × JValue)) (name : String)
    (g : DepGraph) (depName : String) : Except GErr DepGraph :=
  if g.hasNode depName then .ok g
  else
    match lookupF locals depName with
    | some depData => .ok (g.addNode depName depData)
    | none =>
      match requirePackage env name depName with
      | .error e => .error e
      | .ok depData => .ok (g.addNode depName depData)

/-- The body of the inner `forEach` over one dependency name
(utils.ts:297-310): ensure a node for `depName`, then
`addDependency(data.name, depName)`. -/
def processDep (env : Env) (locals : List (String × JValue)) (name : String)
    (data : JValue) (g : DepGraph) (depName : String) : Except GErr DepGraph :=
  match ensureDepNode env locals name g depName with
  | .error e => .error e
  | .ok g1 => g1.addDependency (nameOf data) depName

/-- Fold of `processDep` over a manifest's dependency names. -/
def processDeps (env : Env) (locals : List (String × JValue)) (name : String)
    (data : JValue) : List String → DepGraph → Except GErr DepGraph
  | [], g => .ok g
  | d :: ds, g =>
    match processDep env locals name data g d with
    | .error e => .error e
    | .ok g1 => processDeps env locals name data ds g1

/-- The outer `forEach` over `Object.keys(locals)` (utils.ts:293-311):
add the local's node, then process its dependency names. -/
def buildGraphAux (env : Env) (locals : List (String × JValue)) :
    List (String × JValue) → DepGraph → Except GErr DepGraph
  | [], g => .ok g
  | (name, data) :: rest, g =>
    match processDeps env locals name data (depKeys data) (g.addNode name data) with
    | .error e => .error e
    | .ok g1 => buildGraphAux env locals rest g1

/-- Graph assembly from the gathered locals, starting from an empty
container. -/
def buildGraph (env : Env) (locals : List (String × JValue)) : Except GErr DepGraph :=
  buildGraphAux env locals locals ⟨[], []⟩

/-- The two auxiliary test-fixture paths `getPackageGraph` always appends. -/
def mockPaths : List String :=
  ["./jupyterlab/tests/mock_packages/extension",
   "./jupyterlab/tests/mock_packages/mimeextension"]

/-- Errors escaping `getPackageGraph`: a discovery failure or a graph
assembly failure. -/
inductive PkgErr where
  | lerna : LernaErr → PkgErr
  | graph : GErr → PkgErr
  deriving Repr

/-- `getPackageGraph` (utils.ts:267-314): discover the lerna paths,
append the fixture paths, gather the local manifests (read failures
logged and skipped), then assemble the dependency graph.  The result
carries the graph together with the log of manifest-read errors. -/
def getPackageGraph (env : Env) : Except PkgErr (DepGraph × List String) :=
  match getLernaPaths env "." with
  | .error e => .error (.lerna e)
  | .ok paths0 =>
    let paths := paths0 ++ mockPaths
    let gl := gatherLocals env paths
    match buildGraph env gl.1 with
    | .error e => .error (.graph e)
    | .ok g => .ok (g, gl.2)

mutual

/-- `JSONExt.deepEqual` (lumino) restricted to JSON data: structural on
scalars and arrays; objects compare as finite maps (same key sets, deep
equal values), insensitive to field order. -/
def deepEqual : JValue → JValue → Bool
  | .null, .null => true
  | .bool a, .bool b => a == b
  | .num a, .num b => a == b
  | .str a, .str b => a == b
  | .arr a, .arr b => deepArrEqual a b
  | .obj a, .obj b =>
    (a.map Prod.fst).all (fun k => (b.map Prod.fst).contains k) &&
    (b.map Prod.fst).all (fun k => (a.map Prod.fst).contains k) &&
    deepFieldsEqual a b
  | _, _ => false
termination_by a _ => sizeOf a

/-- Elementwise deep equality of two JSON arrays. -/
def deepArrEqual : List JValue → List JValue → Bool
  | [], [] => true
  | x :: xs, y :: ys => deepEqual x y && deepArrEqual xs ys
  | _, _ => false
termination_by xs _ => sizeOf xs

/-- Each field of the first object deep-equals the second object's value
at the same key. -/
def deepFieldsEqual : List (String × JValue) → List (String × JValue) → Bool
  | [], _ => true
  | (k, v) :: rest, b =>
    (match lookupF b k with
     | some w => deepEqual v w
     | none => false) && deepFieldsEqual rest b
termination_by fs _ => sizeOf fs

end

/-- Boolean key distinctness. -/
def nodupB : List String → Bool
  | [] => true
  | k :: ks => !(ks.contains k) && nodupB ks

mutual

/-- A `JValue` that denotes a JS value: no object carries a duplicated
key (JS objects cannot; `JSON.parse` never produces one). -/
def wfJ : JValue → Bool
  | .obj fs => nodupB (fs.map Prod.fst) && wfFields fs
  | .arr xs => wfArr xs
  | _ => true

def wfArr : List JValue → Bool
  | [] => true
  | x :: xs => wfJ x && wfArr xs

def wfFields : List (String × JValue) → Bool
  | [] => true
  | (_, v) :: fs => wfJ v && wfFields fs

end

/-- Store a JSON file: the written text is the serialization of `v`, so
the parsed view at `p` becomes `v`. -/
def setFile (env : Env) (p : String) (v : JValue) : Env :=
  { env with files := fun q => if q = p then some (some v) else env.files q }

/-- `writeJSONFile` (utils.ts:99-126): read the current content
(defaulting to `{}` on failure), and rewrite the file only when the data
is not `JSONExt.deepEqual` to it, returning whether a write occurred.
(The `sortObjByKey(data)` passed as `JSON.stringify`'s second argument
is neither a function nor an array, so it is ignored as a replacer: the
written text is the plain 2-space serialization of `data`, which parses
back to `data`.) -/
def writeJSONFile (env : Env) (p : String) (data : JValue) : Env × Bool :=
  let orig : JValue :=
    match readJSONFile env p with
    | .ok v => v
    | .error _ => .obj []
  if deepEqual data orig then (env, false)
  else (setFile env p data, true)

/-- Replace each (non-overlapping, leftmost) CRLF pair by a newline. -/
def normChars : List Char → List Char
  | [] => []
  | '\r' :: '\n' :: rest => '\n' :: normChars rest
  | c :: rest => c :: normChars rest

/-- `orig.split('\r\n').join('\n')`. -/
def normalizeCRLF (s : String) : String := String.mk (normChars s.data)

/-- Store raw text at a path. -/
def setRaw (env : Env) (p : String) (t : String) : Env :=
  { env with raw := fun q => if q = p then some t else env.raw q }

/-- `writePackageData` (utils.ts:72-83): serialize the sorted package
data (plus a trailing newline), read the existing file (throwing when it
is absent), normalize its CRLF line endings, and write back only when
the text differs, returning whether the file changed. -/
def writePackageData (env : Env) (p : String) (data : JValue) : Except Unit (Env × Bool) :=
  let text := env.pkgSerialize data ++ "\n"
  match env.raw p with
  | none => .error ()
  | some content =>
    let orig := normalizeCRLF content
    if text != orig then .ok (setRaw env p text, true)
    else .ok (env, false)

/-- The node-name list of a graph (the keys of the container's node map). -/
def DepGraph.names (g : DepGraph) : List String := g.nodes.map Prod.fst

/-- Every edge's endpoints are nodes of the graph. -/
def edgeClosed (g : DepGraph) : Prop :=
  ∀ e ∈ g.outgoing, e.1 ∈ g.names ∧ e.2 ∈ g.names

/-- Whether a package path's manifest is readable. -/
def readOk (env : Env) (p : String) : Bool :=
  match readJSONFile env (pjoin p "package.json") with
  | .ok _ => true
  | .error _ => false

/-- The read error (if any) produced for a package path. -/
def readErr (env : Env) (p : String) : Option String :=
  match readJSONFile env (pjoin p "package.json") with
  | .ok _ => none
  | .error e => some e

/-- Manifest of a package named `a` depending on package `b`. -/
def manifestDep (a b : String) : JValue :=
  .obj [("name", .str a), ("dependencies", .obj [(b, .str "^1.0.0")])]

/-- Manifest of a dependency-free package named `b`. -/
def manifestPlain (b : String) : JValue :=
  .obj [("name", .str b)]

/-- Root manifest declaring the `pkgs/*` workspace glob. -/
def rootWs : JValue := .obj [("workspaces", .arr [.str "pkgs/*"])]

/-- A workspace with two local packages: `a` (at `./pkgs/1`, depending on
`b`) and `b` (at `./pkgs/2`); nothing else resolvable. -/
def twoPkgEnv (a b : String) : Env where
  files := fun p =>
    if p = "./package.json" then some (some rootWs)
    else if p = "./pkgs/1/package.json" then some (some (manifestDep a b))
    else if p = "./pkgs/2/package.json" then some (some (manifestPlain b))
    else none
  globSync := fun g => if g = "./pkgs/*" then ["./pkgs/1", "./pkgs/2"] else []
  resolve := fun s => s
  resolveModule := fun _ => none
  resolveIn := fun _ _ => none
  raw := fun _ => none
  pkgSerialize := fun _ => ""

/-- A workspace with one local package `a` depending on `c`, where `c` is
neither local nor resolvable by the module system. -/
def unresolvedEnv : Env where
  files := fun p =>
    if p = "./package.json" then some (some rootWs)
    else if p = "./pkgs/1/package.json" then some (some (manifestDep "a" "c"))
    else none
  globSync := fun g => if g = "./pkgs/*" then ["./pkgs/1"] else []
  resolve := fun s => s
  resolveModule := fun _ => none
  resolveIn := fun _ _ => none
  raw := fun _ => none
  pkgSerialize := fun _ => ""

/-- A base directory whose manifest has no `workspaces` and with no
`lerna.json`. -/
def noWsEnv : Env where
  files := fun p =>
    if p = "./package.json" then some (some (manifestPlain "root")) else none
  globSync := fun _ => []
  resolve := fun s => s
  resolveModule := fun _ => none
  resolveIn := fun _ _ => none
  raw := fun _ => none
  pkgSerialize := fun _ => ""

/-- An environment in which the parent module is unresolvable but the
dependency's manifest resolves directly by name. -/
def fallbackEnv : Env where
  files := fun p =>
    if p = "/nm/c/package.json" then some (some (manifestPlain "c")) else none
  globSync := fun _ => []
  resolve := fun s => s
  resolveModule := fun m =>
    if m = "c/package.json" then some "/nm/c/package.json" else none
  resolveIn := fun _ _ => none
  raw := fun _ => none
  pkgSerialize := fun _ => ""

/-- An empty JSON filesystem used to exercise the JSON writer. -/
def jsonEnv : Env where
  files := fun _ => none
  globSync := fun _ => []
  resolve := fun s => s
  resolveModule := fun _ => none
  resolveIn := fun _ _ => none
  raw := fun _ => none
  pkgSerialize := fun _ => ""

/-- A raw-text filesystem holding one `package.json`, with a fixed
serializer, used to exercise `writePackageData`. -/
def rawEnv : Env where
  files := fun _ => none
  globSync := fun _ => []
  resolve := fun s => s
  resolveModule := fun _ => none
  resolveIn := fun _ _ => none
  raw := fun p => if p = "./p/package.json" then some "old\r\ntext\n" else none
  pkgSerialize := fun _ => "fresh"

/-- The manifest-read log produced for the two fixture paths, which have
no manifests in the two-package workspace environments. -/
def logTwo : List String :=
  ["Cannot read JSON for path ./jupyterlab/tests/mock_packages/extension/package.json",
   "Cannot read JSON for path ./jupyterlab/tests/mock_packages/mimeextension/package.json"]

/-- The expected dependency graph of the two-package workspace. -/
def graphTwo (a b : String) : DepGraph :=
  ⟨[(a, manifestDep a b), (b, manifestPlain b)], [(a, b)]⟩

theorem hasNode_iff {g : DepGraph} {n : String} : g.hasNode n = true ↔ n ∈ g.names := by
  simp [DepGraph.hasNode, DepGraph.names, List.any_eq_true, List.mem_map]

theorem hasNode_false_iff {g : DepGraph} {n : String} :
    g.hasNode n = false ↔ n ∉ g.names := by
  rw [← Bool.not_eq_true, not_iff_not]
  exact hasNode_iff

theorem addNode_outgoing (g : DepGraph) (n : String) (d : JValue) :
    (g.addNode n d).outgoing = g.outgoing := by
  unfold DepGraph.addNode
  split <;> rfl

theorem mem_names_addNode {g : DepGraph} {n m : String} {d : JValue} :
    m ∈ (g.addNode n d).names ↔ m ∈ g.names ∨ m = n := by
  unfold DepGraph.addNode
  split
  · rename_i h
    have hn : n ∈ g.names := hasNode_iff.mp h
    constructor
    · exact Or.inl
    · rintro (hm | rfl)
      · exact hm
      · exact hn
  · simp [DepGraph.names]

theorem mem_nodes_addNode {g : DepGraph} {n m : String} {d dm : JValue} :
    (m, dm) ∈ (g.addNode n d).nodes ↔ (m, dm) ∈ g.nodes ∨ ((m, dm) = (n, d) ∧ n ∉ g.names) := by
  unfold DepGraph.addNode
  split
  · rename_i h
    have hn : n ∈ g.names := hasNode_iff.mp h
    constructor
    · exact Or.inl
    · rintro (hm | ⟨_, hnn⟩)
      · exact hm
      · exact absurd hn hnn
  · rename_i h
    have hn : n ∉ g.names := hasNode_false_iff.mp (by simpa using h)
    simp only [List.mem_append, List.mem_singleton]
    tauto

theorem names_nodup_addNode {g : DepGraph} {n : String} {d : JValue}
    (h : g.names.Nodup) : ((g.addNode n d).names).Nodup := by
  unfold DepGraph.addNode
  split
  · exact h
  · rename_i hf
    have hn : n ∉ g.names := hasNode_false_iff.mp (by simpa using hf)
    simp only [DepGraph.names, List.map_append, List.map_cons, List.map_nil]
    rw [List.nodup_append]
    refine ⟨h, List.nodup_singleton n, ?_⟩
    intro a ha hb
    rw [List.mem_singleton] at hb
    subst hb
    exact hn ha

theorem hasNode_addNode_self {g : DepGraph} {n : String} {d : JValue} :
    (g.addNode n d).hasNode n = true :=
  hasNode_iff.mpr (mem_names_addNode.mpr (Or.inr rfl))

theorem hasNode_addNode_mono {g : DepGraph} {n m : String} {d : JValue}
    (h : g.hasNode m = true) : (g.addNode n d).hasNode m = true :=
  hasNode_iff.mpr (mem_names_addNode.mpr (Or.inl (hasNode_iff.mp h)))

theorem addDependency_ok {g : DepGraph} {src dst : String}
    (hs : src ∈ g.names) (hd : dst ∈ g.names) :
    ∃ g', g.addDependency src dst = .ok g' ∧ g'.nodes = g.nodes ∧
      (∀ e, e ∈ g'.outgoing ↔ e ∈ g.outgoing ∨ e = (src, dst)) ∧
      (g.outgoing.Nodup → g'.outgoing.Nodup) := by
  unfold DepGraph.addDependency
  rw [hasNode_iff.mpr hs, hasNode_iff.mpr hd]
  simp only [Bool.not_true, Bool.false_eq_true, if_false]
  split
  · rename_i hmem
    refine ⟨g, rfl, rfl, ?_, fun h => h⟩
    intro e
    constructor
    · exact Or.inl
    · rintro (he | rfl)
      · exact he
      · exact hmem
  · rename_i hmem
    refine ⟨_, rfl, rfl, ?_, ?_⟩
    · intro e
      simp
    · intro h
      rw [List.nodup_append]
      refine ⟨h, List.nodup_singleton _, ?_⟩
      intro a ha hb
      rw [List.mem_singleton] at hb
      subst hb
      exact hmem ha

theorem addDependency_error {g : DepGraph} {src dst : String} {e : GErr}
    (h : g.addDependency src dst = .error e) : ∃ n, e = .missingNode n := by
  unfold DepGraph.addDependency at h
  split at h
  · exact ⟨src, (Except.error.inj h).symm⟩
  · split at h
    · exact ⟨dst, (Except.error.inj h).symm⟩
    · split at h <;> exact absurd h (by simp)

theorem loadModule_error {env : Env} {p : String} {e : GErr}
    (h : loadModule env p = .error e) : ∃ s, e = .unresolved s := by
  unfold loadModule at h
  split at h
  · exact absurd h (by simp)
  · exact ⟨p, (Except.error.inj h).symm⟩

theorem requirePackage_error {env : Env} {p m : String} {e : GErr}
    (h : requirePackage env p m = .error e) : ∃ s, e = .unresolved s := by
  simp only [requirePackage] at h
  split at h
  · split at h
    · exact ⟨m ++ "/package.json", (Except.error.inj h).symm⟩
    · exact loadModule_error h
  · split at h
    · exact ⟨m ++ "/package.json", (Except.error.inj h).symm⟩
    · exact loadModule_error h

theorem requirePackage_unresolvable {env : Env} {m : String}
    (h1 : env.resolveModule (m ++ "/package.json") = none)
    (h2 : ∀ p, env.resolveIn (m ++ "/package.json") p = none) (parent : String) :
    requirePackage env parent m = .error (.unresolved (m ++ "/package.json")) := by
  simp only [requirePackage]
  cases hp : env.resolveModule parent with
  | none => simp only [h1]
  | some q => simp only [h2 q]

theorem ensureDepNode_ok {env : Env} {locals : List (String × JValue)}
    {name : String} {g g1 : DepGraph} {d : String}
    (h : ensureDepNode env locals name g d = .ok g1) :
    (∀ m, m ∈ g1.names ↔ m ∈ g.names ∨ m = d) ∧
    g1.outgoing = g.outgoing ∧
    (g.names.Nodup → g1.names.Nodup) := by
  unfold ensureDepNode at h
  split at h
  · rename_i hd
    cases h
    refine ⟨?_, rfl, fun hn => hn⟩
    intro m
    constructor
    · exact Or.inl
    · rintro (hm | rfl)
      · exact hm
      · exact hasNode_iff.mp hd
  · split at h
    · cases h
      exact ⟨fun m => mem_names_addNode, addNode_outgoing _ _ _,
        fun hn => names_nodup_addNode hn⟩
    · split at h
      · exact absurd h (by simp)
      · cases h
        exact ⟨fun m => mem_names_addNode, addNode_outgoing _ _ _,
          fun hn => names_nodup_addNode hn⟩

theorem ensureDepNode_error {env : Env} {locals : List (String × JValue)}
    {name : String} {g : DepGraph} {d : String} {e : GErr}
    (h : ensureDepNode env locals name g d = .error e) :
    g.hasNode d = false ∧ lookupF locals d = none ∧
    requirePackage env name d = .error e := by
  unfold ensureDepNode at h
  split at h
  · exact absurd h (by simp)
  · rename_i hd
    split at h
    · exact absurd h (by simp)
    · rename_i hl
      split at h
      · rename_i e' he
        cases h
        exact ⟨by simpa using hd, hl, he⟩
      · exact absurd h (by simp)

theorem processDep_ok {env : Env} {locals : List (String × JValue)}
    {name : String} {data : JValue} {g g' : DepGraph} {d : String}
    (h : processDep env locals name data g d = .ok g') :
    (∀ m, m ∈ g'.names ↔ m ∈ g.names ∨ m = d) ∧
    (∀ e, e ∈ g'.outgoing ↔ e ∈ g.outgoing ∨ e = (nameOf data, d)) ∧
    (g.names.Nodup → g'.names.Nodup) ∧
    (g.outgoing.Nodup → g'.outgoing.Nodup) := by
  unfold processDep at h
  split at h
  · exact absurd h (by simp)
  · rename_i g1 he
    obtain ⟨hmem, hout, hnd⟩ := ensureDepNode_ok he
    have hsplit := h
    unfold DepGraph.addDependency at hsplit
    split at hsplit
    · exact absurd hsplit (by simp)
    · split at hsplit
      · exact absurd hsplit (by simp)
      · rename_i hs hdn
        have hsrc : nameOf data ∈ g1.names := by
          have hiff := @hasNode_iff g1 (nameOf data)
          rcases hb : g1.hasNode (nameOf data) with _ | _
          · rw [hb] at hs; simp at hs
          · exact hiff.mp hb
        split at hsplit
        · rename_i hedge
          cases hsplit
          refine ⟨hmem, ?_, hnd, fun hn => by rw [hout]; exact hn⟩
          intro e
          rw [hout] at hedge ⊢
          constructor
          · exact Or.inl
          · rintro (hee | rfl)
            · exact hee
            · exact hedge
        · rename_i hedge
          cases hsplit
          refine ⟨hmem, ?_, hnd, ?_⟩
          · intro e
            simp only [List.mem_append, List.mem_singleton]
            rw [hout]
          · intro hn
            rw [hout] at hedge ⊢
            rw [List.nodup_append]
            refine ⟨hn, List.nodup_singleton _, ?_⟩
            intro a ha hb
            rw [List.mem_singleton] at hb
            subst hb
            exact hedge ha

theorem processDep_error {env : Env} {locals : List (String × JValue)}
    {name : String} {data : JValue} {g : DepGraph} {d : String} {e : GErr}
    (hp : g.hasNode (nameOf data) = true)
    (h : processDep env locals name data g d = .error e) :
    ∃ s, e = .unresolved s := by
  unfold processDep at h
  split at h
  · rename_i e' he
    cases h
    obtain ⟨-, -, hr⟩ := ensureDepNode_error he
    exact requirePackage_error hr
  · rename_i g1 he
    obtain ⟨hmem, -, -⟩ := ensureDepNode_ok he
    have hsrc : g1.hasNode (nameOf data) = true :=
      hasNode_iff.mpr ((hmem _).mpr (Or.inl (hasNode_iff.mp hp)))
    have hdst : g1.hasNode d = true :=
      hasNode_iff.mpr ((hmem _).mpr (Or.inr rfl))
    unfold DepGraph.addDependency at h
    rw [hsrc, hdst] at h
    simp only [Bool.not_true, Bool.false_eq_true, if_false] at h
    split at h <;> exact absurd h (by simp)

theorem processDeps_ok {env : Env} {locals : List (String × JValue)}
    {name : String} {data : JValue} :
    ∀ (ds : List String) (g g' : DepGraph),
    processDeps env locals name data ds g = .ok g' →
    (∀ m, m ∈ g'.names ↔ m ∈ g.names ∨ m ∈ ds) ∧
    (∀ e, e ∈ g'.outgoing ↔ e ∈ g.outgoing ∨ ∃ d ∈ ds, e = (nameOf data, d)) ∧
    (g.names.Nodup → g'.names.Nodup) ∧
    (g.outgoing.Nodup → g'.outgoing.Nodup) := by
  intro ds
  induction ds with
  | nil =>
    intro g g' h
    cases h
    refine ⟨?_, ?_, fun hn => hn, fun hn => hn⟩
    · intro m; simp
    · intro e; simp
  | cons d ds ih =>
    intro g g' h
    unfold processDeps at h
    split at h
    · exact absurd h (by simp)
    · rename_i g1 he
      obtain ⟨hm1, he1, hnd1, hne1⟩ := processDep_ok he
      obtain ⟨hm2, he2, hnd2, hne2⟩ := ih g1 g' h
      refine ⟨?_, ?_, fun hn => hnd2 (hnd1 hn), fun hn => hne2 (hne1 hn)⟩
      · intro m
        rw [hm2, hm1]
        simp only [List.mem_cons]
        tauto
      · intro e
        rw [he2, he1]
        simp only [List.mem_cons]
        constructor
        · rintro (((hh | rfl) | ⟨d', hd', rfl⟩))
          · exact Or.inl hh
          · exact Or.inr ⟨d, Or.inl rfl, rfl⟩
          · exact Or.inr ⟨d', Or.inr hd', rfl⟩
        · rintro (hh | ⟨d', (rfl | hd'), rfl⟩)
          · exact Or.inl (Or.inl hh)
          · exact Or.inl (Or.inr rfl)
          · exact Or.inr ⟨d', hd', rfl⟩

theorem processDeps_error {env : Env} {locals : List (String × JValue)}
    {name : String} {data : JValue} :
    ∀ (ds : List String) (g : DepGraph) (e : GErr),
    g.hasNode (nameOf data) = true →
    processDeps env locals name data ds g = .error e →
    ∃ s, e = .unresolved s := by
  intro ds
  induction ds with
  | nil =>
    intro g e _ h
    exact absurd h (by simp [processDeps])
  | cons d ds ih =>
    intro g e hp h
    unfold processDeps at h
    split at h
    · rename_i e' he
      cases h
      exact processDep_error hp he
    · rename_i g1 he
      obtain ⟨hm1, -, -, -⟩ := processDep_ok he
      have hp1 : g1.hasNode (nameOf data) = true :=
        hasNode_iff.mpr ((hm1 _).mpr (Or.inl (hasNode_iff.mp hp)))
      exact ih g1 e hp1 h

theorem processDep_blocked {env : Env} {locals : List (String × JValue)}
    {name : String} {data : JValue} {g : DepGraph} {D : String} {eD : GErr}
    (hg : D ∉ g.names) (hD : lookupF locals D = none)
    (hr : requirePackage env name D = .error eD) :
    processDep env locals name data g D = .error eD := by
  unfold processDep ensureDepNode
  rw [hasNode_false_iff.mpr hg, hD, hr]
  rfl

theorem processDeps_blocked {env : Env} {locals : List (String × JValue)}
    {name : String} {data : JValue} {D : String}
    (hD : lookupF locals D = none)
    (hr : ∀ parent, requirePackage env parent D = .error (.unresolved (D ++ "/package.json"))) :
    ∀ (ds : List String) (g : DepGraph), D ∉ g.names →
    ((D ∈ ds → ∃ e, processDeps env locals name data ds g = .error e) ∧
     (∀ g', processDeps env locals name data ds g = .ok g' → D ∉ g'.names)) := by
  intro ds
  induction ds with
  | nil =>
    intro g hg
    refine ⟨fun hc => absurd hc (by simp), ?_⟩
    intro g' h
    cases h
    exact hg
  | cons d ds ih =>
    intro g hg
    by_cases hdD : d = D
    · subst hdD
      have hblock := @processDep_blocked env locals name data g d _ hg hD (hr name)
      constructor
      · intro _
        refine ⟨.unresolved (d ++ "/package.json"), ?_⟩
        unfold processDeps
        rw [hblock]
      · intro g' h
        unfold processDeps at h
        rw [hblock] at h
        exact absurd h (by simp)
    · constructor
      · intro hmem
        rw [List.mem_cons] at hmem
        rcases hmem with rfl | hmem
        · exact absurd rfl hdD
        · cases hpd : processDep env locals name data g d with
          | error e =>
            refine ⟨e, ?_⟩
            unfold processDeps
            rw [hpd]
          | ok g1 =>
            obtain ⟨hm1, -, -, -⟩ := processDep_ok hpd
            have hg1 : D ∉ g1.names := by
              rw [hm1]
              rintro (hc | rfl)
              · exact hg hc
              · exact hdD rfl
            obtain ⟨hfst, -⟩ := ih g1 hg1
            obtain ⟨e, hee⟩ := hfst hmem
            refine ⟨e, ?_⟩
            unfold processDeps
            rw [hpd]
            exact hee
      · intro g' h
        unfold processDeps at h
        split at h
        · exact absurd h (by simp)
        · rename_i g1 hpd
          obtain ⟨hm1, -, -, -⟩ := processDep_ok hpd
          have hg1 : D ∉ g1.names := by
            rw [hm1]
            rintro (hc | rfl)
            · exact hg hc
            · exact hdD rfl
          obtain ⟨-, hsnd⟩ := ih g1 hg1
          exact hsnd g' h

theorem buildGraphAux_ok {env : Env} {locals : List (String × JValue)} :
    ∀ (rest : List (String × JValue)) (g g' : DepGraph),
    buildGraphAux env locals rest g = .ok g' →
    (∀ m, m ∈ g'.names ↔ m ∈ g.names ∨ ∃ kd ∈ rest, m = kd.1 ∨ m ∈ depKeys kd.2) ∧
    (∀ e, e ∈ g'.outgoing ↔
      e ∈ g.outgoing ∨ ∃ kd ∈ rest, ∃ d ∈ depKeys kd.2, e = (nameOf kd.2, d)) ∧
    (g.names.Nodup → g'.names.Nodup) ∧
    (g.outgoing.Nodup → g'.outgoing.Nodup) := by
  intro rest
  induction rest with
  | nil =>
    intro g g' h
    cases h
    refine ⟨?_, ?_, fun hn => hn, fun hn => hn⟩
    · intro m; simp
    · intro e; simp
  | cons kd rest ih =>
    obtain ⟨name, data⟩ := kd
    intro g g' h
    unfold buildGraphAux at h
    split at h
    · exact absurd h (by simp)
    · rename_i g1 he
      obtain ⟨hm1, he1, hnd1, hne1⟩ := processDeps_ok (depKeys data) (g.addNode name data) g1 he
      obtain ⟨hm2, he2, hnd2, hne2⟩ := ih g1 g' h
      refine ⟨?_, ?_, ?_, ?_⟩
      · intro m
        rw [hm2, hm1, mem_names_addNode]
        simp only [List.mem_cons]
        constructor
        · rintro ((((hh | rfl) | hd) | ⟨kd', hkd', hh⟩))
          · exact Or.inl hh
          · exact Or.inr ⟨_, Or.inl rfl, Or.inl rfl⟩
          · exact Or.inr ⟨(name, data), Or.inl rfl, Or.inr hd⟩
          · exact Or.inr ⟨kd', Or.inr hkd', hh⟩
        · rintro (hh | ⟨kd', (rfl | hkd'), hh⟩)
          · exact Or.inl (Or.inl (Or.inl hh))
          · rcases hh with rfl | hd
            · exact Or.inl (Or.inl (Or.inr rfl))
            · exact Or.inl (Or.inr hd)
          · exact Or.inr ⟨kd', hkd', hh⟩
      · intro e
        rw [he2, he1, addNode_outgoing]
        simp only [List.mem_cons]
        constructor
        · rintro ((hh | ⟨d, hd, rfl⟩) | ⟨kd', hkd', hh⟩)
          · exact Or.inl hh
          · exact Or.inr ⟨(name, data), Or.inl rfl, d, hd, rfl⟩
          · exact Or.inr ⟨kd', Or.inr hkd', hh⟩
        · rintro (hh | ⟨kd', (rfl | hkd'), hh⟩)
          · exact Or.inl (Or.inl hh)
          · exact Or.inl (Or.inr hh)
          · exact Or.inr ⟨kd', hkd', hh⟩
      · intro hn
        exact hnd2 (hnd1 (names_nodup_addNode hn))
      · intro hn
        refine hne2 (hne1 ?_)
        rw [addNode_outgoing]
        exact hn

theorem buildGraphAux_error {env : Env} {locals : List (String × JValue)} :
    ∀ (rest : List (String × JValue)) (g : DepGraph) (e : GErr),
    (∀ kd ∈ rest, kd.1 = nameOf kd.2) →
    buildGraphAux env locals rest g = .error e →
    ∃ s, e = .unresolved s := by
  intro rest
  induction rest with
  | nil =>
    intro g e _ h
    exact absurd h (by simp [buildGraphAux])
  | cons kd rest ih =>
    obtain ⟨name, data⟩ := kd
    intro g e hkeys h
    have hname : name = nameOf data := hkeys (name, data) (List.mem_cons_self _ _)
    unfold buildGraphAux at h
    split at h
    · rename_i e' he
      cases h
      have hp : (g.addNode name data).hasNode (nameOf data) = true := by
        rw [← hname]
        exact hasNode_addNode_self
      exact processDeps_error (depKeys data) (g.addNode name data) e hp he
    · rename_i g1 he
      exact ih g1 e (fun kd' hkd' => hkeys kd' (List.mem_cons_of_mem _ hkd')) h

theorem buildGraphAux_blocked {env : Env} {locals : List (String × JValue)} {D : String}
    (hD : lookupF locals D = none)
    (hr : ∀ parent, requirePackage env parent D = .error (.unresolved (D ++ "/package.json"))) :
    ∀ (rest : List (String × JValue)) (g : DepGraph), D ∉ g.names →
    (∀ kd ∈ rest, kd.1 ≠ D) →
    (((∃ kd ∈ rest, D ∈ depKeys kd.2) → ∃ e, buildGraphAux env locals rest g = .error e) ∧
     (∀ g', buildGraphAux env locals rest g = .ok g' → D ∉ g'.names)) := by
  intro rest
  induction rest with
  | nil =>
    intro g hg _
    refine ⟨fun hc => ?_, ?_⟩
    · obtain ⟨kd, hkd, -⟩ := hc
      exact absurd hkd (by simp)
    · intro g' h
      cases h
      exact hg
  | cons kd rest ih =>
    obtain ⟨name, data⟩ := kd
    intro g hg hkeys
    have hnameD : name ≠ D := hkeys (name, data) (List.mem_cons_self _ _)
    have hg0 : D ∉ (g.addNode name data).names := by
      rw [mem_names_addNode]
      rintro (hc | rfl)
      · exact hg hc
      · exact hnameD rfl
    have hkeys' : ∀ kd' ∈ rest, kd'.1 ≠ D :=
      fun kd' hkd' => hkeys kd' (List.mem_cons_of_mem _ hkd')
    obtain ⟨hpds1, hpds2⟩ :=
      @processDeps_blocked env locals name data D hD hr (depKeys data)
        (g.addNode name data) hg0
    constructor
    · rintro ⟨kd', hkd', hdep⟩
      rw [List.mem_cons] at hkd'
      rcases hkd' with rfl | hkd'
      · obtain ⟨e, hee⟩ := hpds1 hdep
        refine ⟨e, ?_⟩
        unfold buildGraphAux
        rw [hee]
      · cases hpds : processDeps env locals name data (depKeys data) (g.addNode name data) with
        | error e =>
          refine ⟨e, ?_⟩
          unfold buildGraphAux
          rw [hpds]
        | ok g1 =>
          have hg1 : D ∉ g1.names := hpds2 g1 hpds
          obtain ⟨hfst, -⟩ := ih g1 hg1 hkeys'
          obtain ⟨e, hee⟩ := hfst ⟨kd', hkd', hdep⟩
          refine ⟨e, ?_⟩
          unfold buildGraphAux
          rw [hpds]
          exact hee
    · intro g' h
      unfold buildGraphAux at h
      split at h
      · exact absurd h (by simp)
      · rename_i g1 hpds
        have hg1 : D ∉ g1.names := hpds2 g1 hpds
        obtain ⟨-, hsnd⟩ := ih g1 hg1 hkeys'
        exact hsnd g' h

theorem gatherLocalsAux_cons {env : Env} {acc : List (String × JValue) × List String}
    {p : String} {ps : List String} :
    gatherLocalsAux env acc (p :: ps) =
      match readJSONFile env (pjoin p "package.json") with
      | .error e => gatherLocalsAux env (acc.1, acc.2 ++ [e]) ps
      | .ok data => gatherLocalsAux env (setKey acc.1 (nameOf data) data, acc.2) ps := rfl

theorem lookupF_eq_none_iff {l : List (String × JValue)} {k : String} :
    lookupF l k = none ↔ k ∉ l.map Prod.fst := by
  induction l with
  | nil => simp [lookupF]
  | cons p l ih =>
    obtain ⟨k', v⟩ := p
    by_cases he : k' = k
    · subst he
      simp [lookupF]
    · simp only [lookupF, if_neg he, List.map_cons, List.mem_cons]
      rw [ih]
      constructor
      · intro h hc
        rcases hc with rfl | hc
        · exact he rfl
        · exact h hc
      · intro h hc
        exact h (Or.inr hc)

theorem lookupF_mem {l : List (String × JValue)} {k : String} {v : JValue}
    (hnd : (l.map Prod.fst).Nodup) (h : (k, v) ∈ l) : lookupF l k = some v := by
  induction l with
  | nil => exact absurd h (by simp)
  | cons p l ih =>
    obtain ⟨k', v'⟩ := p
    rw [List.map_cons, List.nodup_cons] at hnd
    rw [List.mem_cons] at h
    rcases h with h | h
    · cases h
      simp [lookupF]
    · have hk : k ∈ l.map Prod.fst := List.mem_map.mpr ⟨(k, v), h, rfl⟩
      have hne : k' ≠ k := by
        rintro rfl
        exact hnd.1 hk
      simp only [lookupF, if_neg hne]
      exact ih hnd.2 h

theorem keys_setKey_replace {l : List (String × JValue)} {k : String} {v : JValue} :
    (l.map (fun p => if p.1 = k then (k, v) else p)).map Prod.fst = l.map Prod.fst := by
  rw [List.map_map]
  apply List.map_congr_left
  intro p _
  by_cases h : p.1 = k
  · simp [h]
  · simp [h]

theorem mem_keys_setKey {l : List (String × JValue)} {k k' : String} {v : JValue} :
    k' ∈ (setKey l k v).map Prod.fst ↔ k' ∈ l.map Prod.fst ∨ k' = k := by
  unfold setKey
  split
  · rename_i h
    have hk : k ∈ l.map Prod.fst := by
      rw [List.any_eq_true] at h
      obtain ⟨p, hp, he⟩ := h
      rw [decide_eq_true_eq] at he
      exact List.mem_map.mpr ⟨p, hp, he⟩
    rw [keys_setKey_replace]
    constructor
    · exact Or.inl
    · rintro (hm | rfl)
      · exact hm
      · exact hk
  · rw [List.map_append]
    simp

theorem keys_nodup_setKey {l : List (String × JValue)} {k : String} {v : JValue}
    (h : (l.map Prod.fst).Nodup) : ((setKey l k v).map Prod.fst).Nodup := by
  unfold setKey
  split
  · rw [keys_setKey_replace]
    exact h
  · rename_i hf
    have hk : k ∉ l.map Prod.fst := by
      intro hc
      obtain ⟨p, hp, he⟩ := List.mem_map.mp hc
      exact hf (List.any_eq_true.mpr ⟨p, hp, decide_eq_true he⟩)
    rw [List.map_append]
    rw [List.nodup_append]
    refine ⟨h, by simp, ?_⟩
    intro a ha hb
    simp only [List.map_cons, List.map_nil, List.mem_singleton] at hb
    subst hb
    exact hk ha

theorem entries_setKey {l : List (String × JValue)} {k : String} {v : JValue} :
    ∀ p ∈ setKey l k v, p = (k, v) ∨ p ∈ l := by
  unfold setKey
  split
  · intro p hp
    obtain ⟨q, hq, he⟩ := List.mem_map.mp hp
    by_cases h : q.1 = k
    · rw [if_pos h] at he
      exact Or.inl he.symm
    · rw [if_neg h] at he
      exact Or.inr (he ▸ hq)
  · intro p hp
    rw [List.mem_append, List.mem_singleton] at hp
    tauto

theorem gatherLocalsAux_entries {env : Env} :
    ∀ (ps : List String) (acc : List (String × JValue) × List String),
    (∀ p ∈ acc.1, p.1 = nameOf p.2) →
    ∀ q ∈ (gatherLocalsAux env acc ps).1, q.1 = nameOf q.2 := by
  intro ps
  induction ps with
  | nil => intro acc hacc q hq; exact hacc q hq
  | cons p ps ih =>
    intro acc hacc q hq
    unfold gatherLocalsAux at hq
    split at hq
    · rename_i e hread
      exact ih (acc.1, acc.2 ++ [e]) hacc q hq
    · rename_i data hread
      refine ih _ ?_ q hq
      intro r hr
      rcases entries_setKey r hr with rfl | hr
      · rfl
      · exact hacc r hr

theorem gatherLocalsAux_keys_nodup {env : Env} :
    ∀ (ps : List String) (acc : List (String × JValue) × List String),
    (acc.1.map Prod.fst).Nodup →
    ((gatherLocalsAux env acc ps).1.map Prod.fst).Nodup := by
  intro ps
  induction ps with
  | nil => intro acc hacc; exact hacc
  | cons p ps ih =>
    intro acc hacc
    unfold gatherLocalsAux
    split
    · exact ih _ hacc
    · exact ih _ (keys_nodup_setKey hacc)

theorem gatherLocalsAux_log {env : Env} :
    ∀ (ps : List String) (acc : List (String × JValue) × List String),
    (gatherLocalsAux env acc ps).2 = acc.2 ++ ps.filterMap (readErr env) := by
  intro ps
  induction ps with
  | nil => intro acc; simp [gatherLocalsAux]
  | cons p ps ih =>
    intro acc
    unfold gatherLocalsAux
    cases hread : readJSONFile env (pjoin p "package.json") with
    | error e =>
      rw [ih]
      have he : readErr env p = some e := by
        unfold readErr
        rw [hread]
      rw [List.filterMap_cons, he]
      simp
    | ok data =>
      rw [ih]
      have he : readErr env p = none := by
        unfold readErr
        rw [hread]
      rw [List.filterMap_cons, he]

theorem gatherLocalsAux_log_irrel {env : Env} :
    ∀ (ps : List String) (l : List (String × JValue)) (log log' : List String),
    (gatherLocalsAux env (l, log) ps).1 = (gatherLocalsAux env (l, log') ps).1 := by
  intro ps
  induction ps with
  | nil => intro l log log'; rfl
  | cons p ps ih =>
    intro l log log'
    unfold gatherLocalsAux
    cases hread : readJSONFile env (pjoin p "package.json") with
    | error e => exact ih l (log ++ [e]) (log' ++ [e])
    | ok data => exact ih (setKey l (nameOf data) data) log log'

theorem gatherLocalsAux_filter {env : Env} :
    ∀ (ps : List String) (l : List (String × JValue)) (log : List String),
    (gatherLocalsAux env (l, log) ps).1 =
      (gatherLocalsAux env (l, log) (ps.filter (readOk env))).1 := by
  intro ps
  induction ps with
  | nil => intro l log; rfl
  | cons p ps ih =>
    intro l log
    rw [List.filter_cons]
    cases hread : readJSONFile env (pjoin p "package.json") with
    | error e =>
      have hro : readOk env p = false := by
        unfold readOk
        rw [hread]
      rw [hro]
      simp only [Bool.false_eq_true, if_false]
      rw [gatherLocalsAux_cons, hread]
      show (gatherLocalsAux env (l, log ++ [e]) ps).1 = _
      rw [gatherLocalsAux_log_irrel ps l (log ++ [e]) log]
      exact ih l log
    | ok data =>
      have hro : readOk env p = true := by
        unfold readOk
        rw [hread]
      rw [hro]
      simp only [if_true]
      rw [gatherLocalsAux_cons, gatherLocalsAux_cons, hread]
      exact ih (setKey l (nameOf data) data) log

theorem gatherLocalsAux_key_persist {env : Env} :
    ∀ (ps : List String) (acc : List (String × JValue) × List String) (k : String),
    k ∈ acc.1.map Prod.fst → k ∈ (gatherLocalsAux env acc ps).1.map Prod.fst := by
  intro ps
  induction ps with
  | nil => intro acc k hk; exact hk
  | cons p ps ih =>
    intro acc k hk
    unfold gatherLocalsAux
    split
    · exact ih _ k hk
    · exact ih _ k (mem_keys_setKey.mpr (Or.inl hk))

theorem gatherLocalsAux_key_mem {env : Env} :
    ∀ (ps : List String) (acc : List (String × JValue) × List String)
      (p : String) (data : JValue),
    p ∈ ps → readJSONFile env (pjoin p "package.json") = .ok data →
    nameOf data ∈ (gatherLocalsAux env acc ps).1.map Prod.fst := by
  intro ps
  induction ps with
  | nil => intro acc p data hp _; exact absurd hp (by simp)
  | cons q ps ih =>
    intro acc p data hp hread
    rw [List.mem_cons] at hp
    rcases hp with rfl | hp
    · unfold gatherLocalsAux
      rw [hread]
      exact gatherLocalsAux_key_persist ps _ _ (mem_keys_setKey.mpr (Or.inr rfl))
    · unfold gatherLocalsAux
      split
      · exact ih _ p data hp hread
      · exact ih _ p data hp hread

theorem processDep_src {env : Env} {locals : List (String × JValue)}
    {name : String} {data : JValue} {g g' : DepGraph} {d : String}
    (h : processDep env locals name data g d = .ok g') :
    nameOf data ∈ g'.names := by
  unfold processDep at h
  split at h
  · exact absurd h (by simp)
  · rename_i g1 he
    unfold DepGraph.addDependency at h
    split at h
    · exact absurd h (by simp)
    · rename_i hs
      split at h
      · exact absurd h (by simp)
      · have hsrc : g1.hasNode (nameOf data) = true := by
          rcases hb : g1.hasNode (nameOf data) with _ | _
          · rw [hb] at hs
            simp at hs
          · rfl
        split at h <;> cases h
        · exact hasNode_iff.mp hsrc
        · exact hasNode_iff.mp hsrc

theorem processDep_closed {env : Env} {locals : List (String × JValue)}
    {name : String} {data : JValue} {g g' : DepGraph} {d : String}
    (h : processDep env locals name data g d = .ok g')
    (hc : edgeClosed g) : edgeClosed g' := by
  obtain ⟨hm, he, -, -⟩ := processDep_ok h
  have hsrc := processDep_src h
  intro e hee
  rcases (he e).mp hee with hee | rfl
  · obtain ⟨h1, h2⟩ := hc e hee
    exact ⟨(hm _).mpr (Or.inl h1), (hm _).mpr (Or.inl h2)⟩
  · exact ⟨hsrc, (hm _).mpr (Or.inr rfl)⟩

theorem processDeps_closed {env : Env} {locals : List (String × JValue)}
    {name : String} {data : JValue} :
    ∀ (ds : List String) (g g' : DepGraph),
    processDeps env locals name data ds g = .ok g' →
    edgeClosed g → edgeClosed g' := by
  intro ds
  induction ds with
  | nil =>
    intro g g' h hc
    cases h
    exact hc
  | cons d ds ih =>
    intro g g' h hc
    unfold processDeps at h
    split at h
    · exact absurd h (by simp)
    · rename_i g1 he
      exact ih g1 g' h (processDep_closed he hc)

theorem addNode_closed {g : DepGraph} {n : String} {d : JValue}
    (hc : edgeClosed g) : edgeClosed (g.addNode n d) := by
  intro e hee
  rw [addNode_outgoing] at hee
  obtain ⟨h1, h2⟩ := hc e hee
  exact ⟨mem_names_addNode.mpr (Or.inl h1), mem_names_addNode.mpr (Or.inl h2)⟩

theorem buildGraphAux_closed {env : Env} {locals : List (String × JValue)} :
    ∀ (rest : List (String × JValue)) (g g' : DepGraph),
    buildGraphAux env locals rest g = .ok g' →
    edgeClosed g → edgeClosed g' := by
  intro rest
  induction rest with
  | nil =>
    intro g g' h hc
    cases h
    exact hc
  | cons kd rest ih =>
    obtain ⟨name, data⟩ := kd
    intro g g' h hc
    unfold buildGraphAux at h
    split at h
    · exact absurd h (by simp)
    · rename_i g1 he
      exact ih g1 g' h (processDeps_closed _ _ _ he (addNode_closed hc))

theorem wfArr_mem : ∀ {xs : List JValue} {x : JValue},
    wfArr xs = true → x ∈ xs → wfJ x = true := by
  intro xs
  induction xs with
  | nil => intro x _ hx; exact absurd hx (by simp)
  | cons y ys ih =>
    intro x hwf hx
    rw [wfArr, Bool.and_eq_true] at hwf
    rw [List.mem_cons] at hx
    rcases hx with rfl | hx
    · exact hwf.1
    · exact ih hwf.2 hx

theorem wfFields_mem : ∀ {fs : List (String × JValue)} {k : String} {v : JValue},
    wfFields fs = true → (k, v) ∈ fs → wfJ v = true := by
  intro fs
  induction fs with
  | nil => intro k v _ hx; exact absurd hx (by simp)
  | cons p ps ih =>
    obtain ⟨k', v'⟩ := p
    intro k v hwf hx
    rw [wfFields, Bool.and_eq_true] at hwf
    rw [List.mem_cons] at hx
    rcases hx with hx | hx
    · cases hx
      exact hwf.1
    · exact ih hwf.2 hx

theorem contains_all_self (ks : List String) :
    ks.all (fun k => ks.contains k) = true := by
  rw [List.all_eq_true]
  intro k hk
  exact List.elem_eq_true_of_mem hk

theorem nodupB_iff : ∀ (ks : List String), nodupB ks = true ↔ ks.Nodup := by
  intro ks
  induction ks with
  | nil => simp [nodupB]
  | cons k ks ih =>
    rw [nodupB, Bool.and_eq_true, List.nodup_cons, ih]
    have hc : (!ks.contains k) = true ↔ k ∉ ks := by
      rw [Bool.not_eq_true']
      constructor
      · intro hf hm
        have hf2 : List.elem k ks = false := hf
        rw [List.elem_eq_true_of_mem hm] at hf2
        cases hf2
      · intro hnm
        rcases hb : ks.contains k with _ | _
        · rfl
        · exact absurd (List.mem_of_elem_eq_true hb) hnm
    rw [hc]

theorem deepEqual_refl_size :
    ∀ (n : Nat) (v : JValue), sizeOf v ≤ n → wfJ v = true → deepEqual v v = true := by
  intro n
  induction n with
  | zero =>
    intro v hv _
    exact absurd hv (by cases v <;> simp)
  | succ n ih =>
    intro v hv hwf
    cases v with
    | null => simp [deepEqual]
    | bool b => simp [deepEqual]
    | num i => simp [deepEqual]
    | str s => simp [deepEqual]
    | arr xs =>
      simp only [deepEqual]
      have hwfa : wfArr xs = true := hwf
      have hxs : sizeOf (JValue.arr xs) = 1 + sizeOf xs := by simp
      have inner : ∀ ys : List JValue, (∀ y ∈ ys, y ∈ xs) → deepArrEqual ys ys = true := by
        intro ys
        induction ys with
        | nil => intro _; simp [deepArrEqual]
        | cons y ys ihy =>
          intro hsub
          have hy : y ∈ xs := hsub y (List.mem_cons_self _ _)
          have hsy : sizeOf y ≤ n := by
            have h1 := List.sizeOf_lt_of_mem hy
            omega
          simp only [deepArrEqual, Bool.and_eq_true]
          exact ⟨ih y hsy (wfArr_mem hwfa hy),
            ihy (fun z hz => hsub z (List.mem_cons_of_mem _ hz))⟩
      exact inner xs (fun y hy => hy)
    | obj fs =>
      simp only [deepEqual]
      have hwf2 : wfJ (.obj fs) = (nodupB (fs.map Prod.fst) && wfFields fs) := rfl
      rw [hwf2, Bool.and_eq_true] at hwf
      have hnd : (fs.map Prod.fst).Nodup := (nodupB_iff _).mp hwf.1
      have hfs : sizeOf (JValue.obj fs) = 1 + sizeOf fs := by simp
      rw [contains_all_self]
      simp only [Bool.true_and]
      have inner : ∀ rest : List (String × JValue), (∀ kv ∈ rest, kv ∈ fs) →
          deepFieldsEqual rest fs = true := by
        intro rest
        induction rest with
        | nil => intro _; simp [deepFieldsEqual]
        | cons kv rest ihr =>
          obtain ⟨k, v⟩ := kv
          intro hsub
          have hkv : (k, v) ∈ fs := hsub (k, v) (List.mem_cons_self _ _)
          have hlook : lookupF fs k = some v := lookupF_mem hnd hkv
          have hsv : sizeOf v ≤ n := by
            have h1 := List.sizeOf_lt_of_mem hkv
            have h2 : sizeOf (k, v) = 1 + sizeOf k + sizeOf v := by simp
            omega
          simp only [deepFieldsEqual, hlook, Bool.and_eq_true]
          exact ⟨ih v hsv (wfFields_mem hwf.2 hkv),
            ihr (fun z hz => hsub z (List.mem_cons_of_mem _ hz))⟩
      exact inner fs (fun kv hkv => hkv)

theorem deepEqual_refl {v : JValue} (hwf : wfJ v = true) : deepEqual v v = true :=
  deepEqual_refl_size (sizeOf v) v (Nat.le_refl _) hwf

theorem twoPkg_lerna (a b : String) :
    getLernaPaths (twoPkgEnv a b) "." = .ok ["./pkgs/1", "./pkgs/2"] := rfl

theorem twoPkg_locals (a b : String) (h : a ≠ b) :
    gatherLocals (twoPkgEnv a b) (["./pkgs/1", "./pkgs/2"] ++ mockPaths) =
      ([(a, manifestDep a b), (b, manifestPlain b)], logTwo) := by
  simp [gatherLocals, gatherLocalsAux, readJSONFile, twoPkgEnv, pjoin, setKey, nameOf, jget,
    lookupF, jsKeyString, manifestDep, manifestPlain, h, logTwo]

theorem twoPkg_graph (a b : String) (h : a ≠ b) :
    buildGraph (twoPkgEnv a b) [(a, manifestDep a b), (b, manifestPlain b)] =
      .ok (graphTwo a b) := by
  simp [buildGraph, buildGraphAux, processDeps, processDep, ensureDepNode, depKeys, dedupKeys,
    DepGraph.hasNode, DepGraph.addNode, DepGraph.addDependency, nameOf, jget, lookupF,
    jsKeyString, manifestDep, manifestPlain, h, graphTwo]

theorem getPackageGraph_ok_elim {env : Env} {paths0 : List String} {g : DepGraph}
    {log : List String}
    (hl : getLernaPaths env "." = .ok paths0)
    (h : getPackageGraph env = .ok (g, log)) :
    buildGraph env (gatherLocals env (paths0 ++ mockPaths)).1 = .ok g ∧
    log = (gatherLocals env (paths0 ++ mockPaths)).2 := by
  simp only [getPackageGraph, hl] at h
  split at h
  · exact absurd h (by simp)
  · rename_i g' hbg
    rw [Except.ok.injEq, Prod.mk.injEq] at h
    obtain ⟨rfl, rfl⟩ := h
    exact ⟨hbg, rfl⟩

theorem getPackageGraph_build_error {env : Env} {paths0 : List String} {e : GErr}
    (hl : getLernaPaths env "." = .ok paths0)
    (hb : buildGraph env (gatherLocals env (paths0 ++ mockPaths)).1 = .error e) :
    getPackageGraph env = .error (.graph e) := by
  simp only [getPackageGraph, hl, hb]

theorem getPackageGraph_graph_error_elim {env : Env} {e : GErr}
    (h : getPackageGraph env = .error (.graph e)) :
    ∃ paths0, getLernaPaths env "." = .ok paths0 ∧
      buildGraph env (gatherLocals env (paths0 ++ mockPaths)).1 = .error e := by
  simp only [getPackageGraph] at h
  split at h
  · rw [Except.error.injEq] at h
    cases h
  · rename_i paths0 hl
    split at h
    · rename_i e' hbg
      rw [Except.error.injEq, PkgErr.graph.injEq] at h
      subst h
      exact ⟨paths0, hl, hbg⟩
    · exact absurd h (by simp)

/-- C1: for a workspace of two local packages `a` and `b` where `a`'s
manifest declares a dependency on `b`, `getPackageGraph` yields the graph
with node set exactly `{a, b}` and the single edge `a -> b`; and in
general an `ok` result has one node per distinct package name encountered
(a local name or a declared dependency) and one edge per
(declaring package, dependency) pair, with no duplicates. -/
theorem getPackageGraph_two_local_packages :
    (∀ a b : String, a ≠ b →
      getPackageGraph (twoPkgEnv a b) = .ok (graphTwo a b, logTwo) ∧
      (graphTwo a b).names = [a, b] ∧ (graphTwo a b).outgoing = [(a, b)]) ∧
    (∀ (env : Env) (paths0 : List String) (g : DepGraph) (log : List String),
      getLernaPaths env "." = .ok paths0 →
      getPackageGraph env = .ok (g, log) →
      (∀ m, m ∈ g.names ↔
        m ∈ (gatherLocals env (paths0 ++ mockPaths)).1.map Prod.fst ∨
        ∃ kd ∈ (gatherLocals env (paths0 ++ mockPaths)).1, m ∈ depKeys kd.2) ∧
      g.names.Nodup ∧
      (∀ e, e ∈ g.outgoing ↔
        ∃ kd ∈ (gatherLocals env (paths0 ++ mockPaths)).1,
          e.1 = kd.1 ∧ e.2 ∈ depKeys kd.2) ∧
      g.outgoing.Nodup) := by
  constructor
  · intro a b h
    refine ⟨?_, by simp [graphTwo, DepGraph.names], rfl⟩
    have h1 := twoPkg_lerna a b
    have h2 := twoPkg_locals a b h
    have h3 := twoPkg_graph a b h
    simp only [getPackageGraph, h1, h2, h3]
  · intro env paths0 g log hl hok
    obtain ⟨hbg, -⟩ := getPackageGraph_ok_elim hl hok
    have hkeys : ∀ kd ∈ (gatherLocals env (paths0 ++ mockPaths)).1, kd.1 = nameOf kd.2 :=
      gatherLocalsAux_entries _ ([], []) (fun p hp => absurd hp (by simp))
    obtain ⟨hm, he, hnd, hne⟩ := buildGraphAux_ok _ _ _ hbg
    refine ⟨?_, hnd (by simp [DepGraph.names]), ?_, hne (by simp)⟩
    · intro m
      rw [hm m]
      have hempty : m ∈ (DepGraph.mk [] []).names ↔ False := by simp [DepGraph.names]
      rw [hempty]
      simp only [false_or]
      constructor
      · rintro ⟨kd, hkd, rfl | hdk⟩
        · exact Or.inl (List.mem_map.mpr ⟨kd, hkd, rfl⟩)
        · exact Or.inr ⟨kd, hkd, hdk⟩
      · rintro (hk | ⟨kd, hkd, hdk⟩)
        · obtain ⟨kd, hkd, rfl⟩ := List.mem_map.mp hk
          exact ⟨kd, hkd, Or.inl rfl⟩
        · exact ⟨kd, hkd, Or.inr hdk⟩
    · intro e
      rw [he e]
      have hempty : e ∈ (DepGraph.mk [] []).outgoing ↔ False := by simp
      rw [hempty]
      simp only [false_or]
      constructor
      · rintro ⟨kd, hkd, d, hd, rfl⟩
        exact ⟨kd, hkd, (hkeys kd hkd).symm, hd⟩
      · rintro ⟨kd, hkd, h1, h2⟩
        refine ⟨kd, hkd, e.2, h2, ?_⟩
        rw [← hkeys kd hkd, ← h1]

/-- C2: when a discovered package declares a dependency `D` that is
neither in the local mapping nor resolvable by the module system
(no direct resolution, no relative resolution from anywhere),
`getPackageGraph` fails with an unresolved-dependency error and returns
no graph. -/
theorem getPackageGraph_unresolved_dependency_fails :
    ∀ (env : Env) (paths0 : List String) (L D : String) (dataL : JValue),
    getLernaPaths env "." = .ok paths0 →
    (L, dataL) ∈ (gatherLocals env (paths0 ++ mockPaths)).1 →
    D ∈ depKeys dataL →
    lookupF (gatherLocals env (paths0 ++ mockPaths)).1 D = none →
    env.resolveModule (D ++ "/package.json") = none →
    (∀ p, env.resolveIn (D ++ "/package.json") p = none) →
    (∃ s, getPackageGraph env = .error (.graph (.unresolved s))) ∧
    ∀ g log, getPackageGraph env ≠ .ok (g, log) := by
  intro env paths0 L D dataL hl hmem hdep hlook hrm hri
  have hr : ∀ parent, requirePackage env parent D =
      .error (.unresolved (D ++ "/package.json")) :=
    fun parent => requirePackage_unresolvable hrm hri parent
  have hkeys : ∀ kd ∈ (gatherLocals env (paths0 ++ mockPaths)).1, kd.1 = nameOf kd.2 :=
    gatherLocalsAux_entries _ ([], []) (fun p hp => absurd hp (by simp))
  have hDnotkey : ∀ kd ∈ (gatherLocals env (paths0 ++ mockPaths)).1, kd.1 ≠ D := by
    intro kd hkd hc
    exact (lookupF_eq_none_iff.mp hlook) (List.mem_map.mpr ⟨kd, hkd, hc⟩)
  have hempty : D ∉ (DepGraph.mk [] []).names := by simp [DepGraph.names]
  obtain ⟨hfst, -⟩ :=
    buildGraphAux_blocked hlook hr (gatherLocals env (paths0 ++ mockPaths)).1
      ⟨[], []⟩ hempty hDnotkey
  obtain ⟨e, he⟩ := hfst ⟨(L, dataL), hmem, hdep⟩
  obtain ⟨s, rfl⟩ := buildGraphAux_error _ _ e hkeys he
  have hmain : getPackageGraph env = .error (.graph (.unresolved s)) :=
    getPackageGraph_build_error hl he
  refine ⟨⟨s, hmain⟩, ?_⟩
  intro g log hcon
  rw [hmain] at hcon
  cases hcon

/-- C7: `getPackageGraph` is a pure function of the observed filesystem:
two invocations that both succeed return identical node maps, node-name
sets, edge sets and logs (there is no hidden incremental state). -/
theorem getPackageGraph_deterministic :
    ∀ (env : Env) (g1 g2 : DepGraph) (l1 l2 : List String),
    getPackageGraph env = .ok (g1, l1) → getPackageGraph env = .ok (g2, l2) →
    g1.nodes = g2.nodes ∧ g1.names = g2.names ∧ g1.outgoing = g2.outgoing ∧ l1 = l2 := by
  intro env g1 g2 l1 l2 h1 h2
  rw [h1, Except.ok.injEq, Prod.mk.injEq] at h2
  obtain ⟨rfl, rfl⟩ := h2
  exact ⟨rfl, rfl, rfl, rfl⟩

/-- C8: every graph `getPackageGraph` returns maps each name to exactly
one node (the name list has no duplicates; re-adding an existing name
leaves the node list unchanged rather than creating a duplicate), and
every edge's endpoints are existing nodes; a failed `addDependency`
(missing source or target node) never occurs — every graph-phase error
is an unresolved-dependency error. -/
theorem getPackageGraph_node_edge_invariants :
    ∀ env : Env,
      (∀ g log, getPackageGraph env = .ok (g, log) → g.names.Nodup ∧ edgeClosed g) ∧
      (∀ e, getPackageGraph env = .error (.graph e) → ∃ s, e = .unresolved s) ∧
      (∀ (g : DepGraph) (n : String) (d : JValue), g.hasNode n = true →
        (g.addNode n d).nodes = g.nodes) := by
  intro env
  refine ⟨?_, ?_, ?_⟩
  · intro g log h
    simp only [getPackageGraph] at h
    split at h
    · exact absurd h (by simp)
    · rename_i paths0 hl
      split at h
      · exact absurd h (by simp)
      · rename_i g' hbg
        rw [Except.ok.injEq, Prod.mk.injEq] at h
        obtain ⟨rfl, -⟩ := h
        obtain ⟨-, -, hnd, -⟩ := buildGraphAux_ok _ _ _ hbg
        refine ⟨hnd (by simp [DepGraph.names]), ?_⟩
        exact buildGraphAux_closed _ _ _ hbg (fun e he => absurd he (by simp))
  · intro e h
    obtain ⟨paths0, hl, hb⟩ := getPackageGraph_graph_error_elim h
    have hkeys : ∀ kd ∈ (gatherLocals env (paths0 ++ mockPaths)).1, kd.1 = nameOf kd.2 :=
      gatherLocalsAux_entries _ ([], []) (fun p hp => absurd hp (by simp))
    exact buildGraphAux_error _ _ e hkeys hb
  · intro g n d h
    simp [DepGraph.addNode, h]

/-- C3: a package path whose manifest read fails is skipped — the locals
mapping equals the one gathered from the readable paths alone — while the
read error is logged; in a successful build the log is exactly the read
errors of the discovered paths and every readable package's name is a
node of the resulting graph.  Read failures never abort construction. -/
theorem getPackageGraph_skips_unreadable_manifests :
    ∀ (env : Env) (paths : List String),
    (gatherLocals env paths).1 = (gatherLocals env (paths.filter (readOk env))).1 ∧
    (gatherLocals env paths).2 = paths.filterMap (readErr env) ∧
    (∀ (paths0 : List String) (g : DepGraph) (log : List String),
      getLernaPaths env "." = .ok paths0 →
      getPackageGraph env = .ok (g, log) →
      log = (paths0 ++ mockPaths).filterMap (readErr env) ∧
      (∀ (p : String) (data : JValue), p ∈ paths0 ++ mockPaths →
        readJSONFile env (pjoin p "package.json") = .ok data →
        nameOf data ∈ g.names)) := by
  intro env paths
  refine ⟨gatherLocalsAux_filter paths [] [], ?_, ?_⟩
  · rw [gatherLocals, gatherLocalsAux_log]
    simp
  · intro paths0 g log hl hok
    obtain ⟨hbg, hlog⟩ := getPackageGraph_ok_elim hl hok
    constructor
    · rw [hlog, gatherLocals, gatherLocalsAux_log]
      simp
    · intro p data hp hread
      have hkey : nameOf data ∈ (gatherLocals env (paths0 ++ mockPaths)).1.map Prod.fst :=
        gatherLocalsAux_key_mem _ ([], []) p data hp hread
      obtain ⟨hm, -, -, -⟩ := buildGraphAux_ok _ _ _ hbg
      rw [hm]
      obtain ⟨kd, hkd, hfst⟩ := List.mem_map.mp hkey
      exact Or.inr ⟨kd, hkd, Or.inl hfst.symm⟩

/-- C4: for a dependency that is not yet a node, the local workspace
mapping is consulted first (when it holds the name, module resolution is
not involved at all); otherwise `requirePackage` resolves the
dependency's manifest relative to the resolved parent module; when the
parent itself cannot be resolved, it falls back to a direct resolution
by name, which returns normally on success — only when that fallback
also fails does an unresolved-reference error propagate. -/
theorem requirePackage_resolution_order :
    (∀ (env : Env) (locals : List (String × JValue)) (name : String) (data : JValue)
        (g : DepGraph) (d : String) (depData : JValue),
      g.hasNode d = false → lookupF locals d = some depData →
      processDep env locals name data g d =
        (g.addNode d depData).addDependency (nameOf data) d) ∧
    (∀ (env : Env) (parent m p : String), env.resolveModule parent = some p →
      requirePackage env parent m =
        (match env.resolveIn (m ++ "/package.json") p with
         | none => .error (.unresolved (m ++ "/package.json"))
         | some q => loadModule env q)) ∧
    (∀ (env : Env) (parent m q : String) (v : JValue),
      env.resolveModule parent = none →
      env.resolveModule (m ++ "/package.json") = some q →
      env.files q = some (some v) →
      requirePackage env parent m = .ok v) ∧
    (∀ (env : Env) (parent m : String),
      env.resolveModule parent = none →
      env.resolveModule (m ++ "/package.json") = none →
      requirePackage env parent m = .error (.unresolved (m ++ "/package.json"))) := by
  refine ⟨?_, ?_, ?_, ?_⟩
  · intro env locals name data g d depData hn hl
    simp only [processDep, ensureDepNode, hn, hl]
    simp
  · intro env parent m p h
    simp only [requirePackage, h]
  · intro env parent m q v h1 h2 h3
    simp only [requirePackage, h1, h2, loadModule, h3]
  · intro env parent m h1 h2
    simp only [requirePackage, h1, h2]

/-- C5: when the base manifest is missing or declares no (truthy)
`workspaces` and no `lerna.json` fallback exists, `getLernaPaths` fails
with exactly the configuration error. -/
theorem getLernaPaths_configuration_error :
    ∀ (env : Env) (basePath : String),
    (env.files (pjoin (env.resolve basePath) "package.json") = none ∨
      ∃ cfg, env.files (pjoin (env.resolve basePath) "package.json") = some (some cfg) ∧
        truthyU (jget cfg "workspaces") = false) →
    env.files (pjoin (env.resolve basePath) "lerna.json") = none →
    getLernaPaths env basePath = .error .config := by
  intro env basePath h1 h2
  rcases h1 with h1 | ⟨cfg, h1, ht⟩
  · simp only [getLernaPaths, requireJSON, h1]
  · simp only [getLernaPaths, requireJSON, h1]
    cases hw : jget cfg "workspaces" with
    | none => simp only [hw, lernaFallback, requireJSON, h2]
    | some ws =>
      rw [hw] at ht
      have ht2 : truthy ws = false := ht
      simp only [hw, ht2, Bool.false_eq_true, if_false, lernaFallback, requireJSON, h2]

/-- C6: when the base manifest declares a (truthy) workspaces glob list,
`getLernaPaths` returns exactly the glob matches, in order and without
deduplication, filtered to the directories that contain a manifest file —
and nothing else. -/
theorem getLernaPaths_workspace_globs :
    ∀ (env : Env) (basePath : String) (cfg ws : JValue) (cs : List String),
    env.files (pjoin (env.resolve basePath) "package.json") = some (some cfg) →
    jget cfg "workspaces" = some ws →
    truthy ws = true →
    iterStrings (effectiveWorkspaces ws) = some cs →
    getLernaPaths env basePath =
      .ok (((cs.map (fun c => env.globSync (pjoin (env.resolve basePath) c))).flatten).filter
        (fun p => (env.files (pjoin p "package.json")).isSome)) ∧
    (∀ p, p ∈ ((cs.map (fun c => env.globSync (pjoin (env.resolve basePath) c))).flatten).filter
        (fun p => (env.files (pjoin p "package.json")).isSome) ↔
      ((∃ c ∈ cs, p ∈ env.globSync (pjoin (env.resolve basePath) c)) ∧
        (env.files (pjoin p "package.json")).isSome = true)) := by
  intro env basePath cfg ws cs h1 h2 h3 h4
  constructor
  · simp only [getLernaPaths, requireJSON, h1, h2, h3, if_true, h4]
  · intro p
    rw [List.mem_filter, List.mem_flatten]
    constructor
    · rintro ⟨⟨l, hl, hpl⟩, hf⟩
      obtain ⟨c, hc, rfl⟩ := List.mem_map.mp hl
      exact ⟨⟨c, hc, hpl⟩, hf⟩
    · rintro ⟨⟨c, hc, hpl⟩, hf⟩
      exact ⟨⟨env.globSync (pjoin (env.resolve basePath) c),
        List.mem_map.mpr ⟨c, hc, rfl⟩, hpl⟩, hf⟩

/-- C9 counterexample: writing the empty object to a missing (or
unreadable) file is a no-op — the current content defaults to the empty
object, which is deep-equal to the data — so no file is created and
reading it back afterwards still fails: the round-trip property fails at
this input. -/
theorem writeJSONFile_roundtrip_counterexample :
    writeJSONFile jsonEnv "./x.json" (.obj []) = (jsonEnv, false) ∧
    readJSONFile (writeJSONFile jsonEnv "./x.json" (.obj [])).1 "./x.json" =
      .error "Cannot read JSON for path ./x.json" := by
  have hw : writeJSONFile jsonEnv "./x.json" (.obj []) = (jsonEnv, false) := by
    unfold writeJSONFile
    simp [readJSONFile, jsonEnv, deepEqual, deepFieldsEqual]
  refine ⟨hw, ?_⟩
  rw [hw]
  rfl

/-- C9 (amended): for well-formed data, whenever the writer actually
writes or the target file was already readable, reading the file back
yields a value deep-equal to the data, and writing the same data a
second time performs no file write and reports no change.  (The
amendment excludes the sole failing case: an unreadable target whose
defaulted current content, the empty object, is already deep-equal to
the data, so that nothing is written and the file stays unreadable.) -/
theorem writeJSONFile_roundtrip :
    ∀ (env : Env) (p : String) (data : JValue),
    wfJ data = true →
    ((writeJSONFile env p data).2 = true ∨ ∃ w, readJSONFile env p = .ok w) →
    ∃ v, readJSONFile (writeJSONFile env p data).1 p = .ok v ∧
      deepEqual data v = true ∧
      writeJSONFile (writeJSONFile env p data).1 p data =
        ((writeJSONFile env p data).1, false) := by
  intro env p data hwf hpre
  cases hr : readJSONFile env p with
  | ok w =>
    have hw : writeJSONFile env p data =
        (if deepEqual data w then (env, false) else (setFile env p data, true)) := by
      unfold writeJSONFile
      rw [hr]
    cases hde : deepEqual data w with
    | true =>
      have hwe : writeJSONFile env p data = (env, false) := by
        rw [hw, hde]
        simp
      rw [hwe]
      exact ⟨w, hr, hde, hwe⟩
    | false =>
      have hwe : writeJSONFile env p data = (setFile env p data, true) := by
        rw [hw, hde]
        simp
      have hread : readJSONFile (setFile env p data) p = .ok data := by
        unfold readJSONFile setFile
        simp
      have hsecond : writeJSONFile (setFile env p data) p data =
          (setFile env p data, false) := by
        unfold writeJSONFile
        rw [hread]
        simp [deepEqual_refl hwf]
      rw [hwe]
      exact ⟨data, hread, deepEqual_refl hwf, hsecond⟩
  | error err =>
    have hw : writeJSONFile env p data =
        (if deepEqual data (.obj []) then (env, false) else (setFile env p data, true)) := by
      unfold writeJSONFile
      rw [hr]
    cases hde : deepEqual data (.obj []) with
    | true =>
      exfalso
      have hwe : writeJSONFile env p data = (env, false) := by
        rw [hw, hde]
        simp
      rcases hpre with hpre | ⟨w, hw2⟩
      · rw [hwe] at hpre
        cases hpre
      · rw [hr] at hw2
        cases hw2
    | false =>
      have hwe : writeJSONFile env p data = (setFile env p data, true) := by
        rw [hw, hde]
        simp
      have hread : readJSONFile (setFile env p data) p = .ok data := by
        unfold readJSONFile setFile
        simp
      have hsecond : writeJSONFile (setFile env p data) p data =
          (setFile env p data, false) := by
        unfold writeJSONFile
        rw [hread]
        simp [deepEqual_refl hwf]
      rw [hwe]
      exact ⟨data, hread, deepEqual_refl hwf, hsecond⟩

/-- C10: `writePackageData` on an existing manifest file writes exactly
when the serialized, sorted package data (with trailing newline) differs
from the CRLF-normalized current content; it returns `true` exactly when
it wrote, and when it returns `false` the environment is untouched. -/
theorem writePackageData_change_detection :
    ∀ (env : Env) (p : String) (data : JValue) (content : String),
    env.raw p = some content →
    ((env.pkgSerialize data ++ "\n" ≠ normalizeCRLF content →
        writePackageData env p data =
          .ok (setRaw env p (env.pkgSerialize data ++ "\n"), true) ∧
        (setRaw env p (env.pkgSerialize data ++ "\n")).raw p =
          some (env.pkgSerialize data ++ "\n")) ∧
     (env.pkgSerialize data ++ "\n" = normalizeCRLF content →
        writePackageData env p data = .ok (env, false))) := by
  intro env p data content hraw
  constructor
  · intro hne
    constructor
    · unfold writePackageData
      rw [hraw]
      simp [hne]
    · simp [setRaw]
  · intro heq
    unfold writePackageData
    rw [hraw]
    simp [heq]

/-- Witness for C1: the two-package scenario at concrete names. -/
theorem getPackageGraph_two_local_packages_witness :
    getPackageGraph (twoPkgEnv "a" "b") = .ok (graphTwo "a" "b", logTwo) ∧
    (graphTwo "a" "b").names = ["a", "b"] ∧
    (graphTwo "a" "b").outgoing = [("a", "b")] :=
  getPackageGraph_two_local_packages.1 "a" "b" (by decide)

/-- Witness for C2: a concrete workspace whose only package depends on an
unresolvable `c`. -/
theorem getPackageGraph_unresolved_dependency_fails_witness :
    (∃ s, getPackageGraph unresolvedEnv = .error (.graph (.unresolved s))) ∧
    ∀ g log, getPackageGraph unresolvedEnv ≠ .ok (g, log) :=
  getPackageGraph_unresolved_dependency_fails unresolvedEnv ["./pkgs/1"] "a" "c"
    (manifestDep "a" "c") rfl (List.mem_cons_self _ _) (List.mem_cons_self _ _) rfl rfl
    (fun _ => rfl)

/-- Witness for C3: in the two-package workspace the log is exactly the
two fixture-path read errors and a readable package's name is a node. -/
theorem getPackageGraph_skips_unreadable_manifests_witness :
    logTwo = (["./pkgs/1", "./pkgs/2"] ++ mockPaths).filterMap (readErr (twoPkgEnv "a" "b")) ∧
    nameOf (manifestDep "a" "b") ∈ (graphTwo "a" "b").names := by
  have h := (getPackageGraph_skips_unreadable_manifests (twoPkgEnv "a" "b") []).2.2
    ["./pkgs/1", "./pkgs/2"] (graphTwo "a" "b") logTwo rfl rfl
  exact ⟨h.1, h.2 "./pkgs/1" (manifestDep "a" "b") (by decide) rfl⟩

/-- Witness for C4: each branch of the resolution order at concrete
inputs over `fallbackEnv`. -/
theorem requirePackage_resolution_order_witness :
    processDep fallbackEnv [("b", manifestPlain "b")] "a" (manifestDep "a" "b")
      (DepGraph.mk [("a", manifestDep "a" "b")] []) "b" =
      ((DepGraph.mk [("a", manifestDep "a" "b")] []).addNode "b"
        (manifestPlain "b")).addDependency (nameOf (manifestDep "a" "b")) "b" ∧
    requirePackage fallbackEnv "c/package.json" "b" =
      .error (.unresolved ("b" ++ "/package.json")) ∧
    requirePackage fallbackEnv "a" "c" = .ok (manifestPlain "c") ∧
    requirePackage fallbackEnv "a" "z" = .error (.unresolved ("z" ++ "/package.json")) :=
  ⟨requirePackage_resolution_order.1 fallbackEnv [("b", manifestPlain "b")] "a"
      (manifestDep "a" "b") (DepGraph.mk [("a", manifestDep "a" "b")] []) "b"
      (manifestPlain "b") rfl rfl,
   requirePackage_resolution_order.2.1 fallbackEnv "c/package.json" "b"
      "/nm/c/package.json" rfl,
   requirePackage_resolution_order.2.2.1 fallbackEnv "a" "c" "/nm/c/package.json"
      (manifestPlain "c") rfl rfl rfl,
   requirePackage_resolution_order.2.2.2 fallbackEnv "a" "z" rfl rfl⟩

/-- Witness for C5: a base directory with a workspace-less manifest and
no `lerna.json`. -/
theorem getLernaPaths_configuration_error_witness :
    getLernaPaths noWsEnv "." = .error .config :=
  getLernaPaths_configuration_error noWsEnv "."
    (Or.inr ⟨manifestPlain "root", rfl, rfl⟩) rfl

/-- Witness for C6: the two-package workspace's glob expansion at
concrete inputs. -/
theorem getLernaPaths_workspace_globs_witness :
    getLernaPaths (twoPkgEnv "a" "b") "." = .ok ["./pkgs/1", "./pkgs/2"] ∧
    ("./pkgs/1" ∈ (["./pkgs/1", "./pkgs/2"] : List String) ↔
      ((∃ c ∈ ["pkgs/*"], "./pkgs/1" ∈ (twoPkgEnv "a" "b").globSync (pjoin "." c)) ∧
        ((twoPkgEnv "a" "b").files (pjoin "./pkgs/1" "package.json")).isSome = true)) := by
  have h := getLernaPaths_workspace_globs (twoPkgEnv "a" "b") "." rootWs
    (.arr [.str "pkgs/*"]) ["pkgs/*"] rfl rfl rfl rfl
  exact ⟨h.1, h.2 "./pkgs/1"⟩

/-- Witness for C7: two successful runs on the same environment. -/
theorem getPackageGraph_deterministic_witness :
    (graphTwo "a" "b").nodes = (graphTwo "a" "b").nodes ∧
    (graphTwo "a" "b").names = (graphTwo "a" "b").names ∧
    (graphTwo "a" "b").outgoing = (graphTwo "a" "b").outgoing ∧
    logTwo = logTwo :=
  getPackageGraph_deterministic (twoPkgEnv "a" "b") (graphTwo "a" "b") (graphTwo "a" "b")
    logTwo logTwo rfl rfl

/-- Witness for C8: the invariants at the concrete two-package graph. -/
theorem getPackageGraph_node_edge_invariants_witness :
    (graphTwo "a" "b").names.Nodup ∧ edgeClosed (graphTwo "a" "b") :=
  (getPackageGraph_node_edge_invariants (twoPkgEnv "a" "b")).1 (graphTwo "a" "b") logTwo rfl

/-- Witness for C9 (amended): an actual write into an empty filesystem
round-trips and the second write is a no-op. -/
theorem writeJSONFile_roundtrip_witness :
    ∃ v, readJSONFile (writeJSONFile jsonEnv "./x.json"
        (.obj [("name", .str "a")])).1 "./x.json" = .ok v ∧
      deepEqual (.obj [("name", .str "a")]) v = true ∧
      writeJSONFile (writeJSONFile jsonEnv "./x.json" (.obj [("name", .str "a")])).1
          "./x.json" (.obj [("name", .str "a")]) =
        ((writeJSONFile jsonEnv "./x.json" (.obj [("name", .str "a")])).1, false) :=
  writeJSONFile_roundtrip jsonEnv "./x.json" (.obj [("name", .str "a")]) rfl
    (Or.inl (by
      unfold writeJSONFile
      simp [readJSONFile, jsonEnv, deepEqual, deepFieldsEqual]))

/-- Witness for C10: a manifest whose serialization differs from the
current CRLF content is rewritten. -/
theorem writePackageData_change_detection_witness :
    writePackageData rawEnv "./p/package.json" (.obj []) =
      .ok (setRaw rawEnv "./p/package.json" (rawEnv.pkgSerialize (.obj []) ++ "\n"), true) ∧
    (setRaw rawEnv "./p/package.json" (rawEnv.pkgSerialize (.obj []) ++ "\n")).raw
        "./p/package.json" = some (rawEnv.pkgSerialize (.obj []) ++ "\n") :=
  (writePackageData_change_detection rawEnv "./p/package.json" (.obj [])
    "old\r\ntext\n" rfl).1 (by decide)

end Buildutils
